import Mathlib

/-!
Shallow embedding of the SEC 10-K embedding notebook
(`01_SEC_10k_embedding.ipynb`): the spaCy-based section filtering pass
(`parse_sections`), the dataset reshaping helper (`wrap`), the Doc2Vec
retrieval evaluation (`eval_model`) and the sentence-transformer mean
pooling (`mean_pooling` inside `get_embeddings`), together with theorems
about them.
-/

namespace SEC

/-! ## Tokens and the filtering pass (`parse_sections`) -/

/-- A spaCy token, carrying exactly the attributes the notebook consults. -/
structure Token where
  text : String
  lemma_ : String
  pos_ : String
  is_stop : Bool
  is_digit : Bool
  is_alpha : Bool
  is_punct : Bool
  is_space : Bool
deriving DecidableEq, Repr

/-- The retention test of `parse_sections`: a token is kept when none of the
listed exclusion conditions holds (`not any([...])` in the source). -/
def keepToken (t : Token) : Bool :=
  ! ([ t.is_stop,
       t.is_digit,
       ! t.is_alpha,
       t.is_punct,
       t.is_space,
       t.lemma_ == "-PRON-",
       (["PUNCT", "SYM", "X"] : List String).contains t.pos_ ].any id)

/-- The spaCy pipeline `nlp`, abstracted: a text maps to its sentences,
each a list of tokens (`doc.sents`). -/
def Nlp : Type := String → List (List Token)

/-- The `clean_sentence` accumulation of `parse_sections`: walk the
sentences, keeping the tokens that pass `keepToken`. -/
def clean_sentence (sents : List (List Token)) : List Token :=
  sents.foldl (fun acc sent => acc ++ sent.filter keepToken) []

/-- One document of the filtering pass: the kept tokens' texts joined by a
space, or the empty string when no token is kept. -/
def cleanDoc (nlp : Nlp) (text : String) : String :=
  let toks := (clean_sentence (nlp text)).map Token.text
  if toks.length > 0 then String.intercalate " " toks else ""

/-- A batch handed to `parse_sections` by `datasets.map(..., batched=True)`:
parallel lists for `cik` and `year`, plus a text list per section column. -/
structure Examples where
  cik : List String
  year : List String
  cols : String → List String

/-- `parse_sections(examples, col_names)`: builds the result dict with the
`cik` and `year` columns copied through and one `parsed_<col>` column per
requested section column, holding the filtered texts. -/
def parse_sections (nlp : Nlp) (examples : Examples) (col_names : List String) :
    List (String × List String) :=
  ("cik", examples.cik) :: ("year", examples.year) ::
    col_names.map (fun col => ("parsed_" ++ col, (examples.cols col).map (cleanDoc nlp)))

/-! ## Dataset reshaping (`wrap`) -/

/-- A row of a tabular dataset before wrapping: key columns plus a map from
text-column name to contents. -/
structure SrcRow where
  cik : String
  year : String
  text : String → String

/-- A row after `wrap`: key columns, the derived `section` column, and the
single renamed text column. -/
structure WrappedRow where
  cik : String
  year : String
  sect : String
  text : String
deriving DecidableEq, Repr

/-- `col.split('_')`, on the character list: split into the maximal runs
between underscores (an empty run at each boundary, as in Python). -/
def splitSegs : List Char → List (List Char)
  | [] => [[]]
  | c :: rest =>
    match splitSegs rest with
    | [] => [[]]
    | seg :: segs => if c = '_' then [] :: seg :: segs else (c :: seg) :: segs

/-- `col.split('_')[-1]`: the part of a column name after its last
underscore. -/
def lastSegment (col : String) : String :=
  String.mk ((splitSegs col.toList).getLastD [])

/-- `wrap(data, col_names, new_name)`: one dataset per listed column, each
keeping the rows whose text is non-empty and tagging them with the
column's trailing segment as `section`. -/
def wrap (data : List SrcRow) (col_names : List String) : List (List WrappedRow) :=
  col_names.map (fun col =>
    (data.filter (fun r => r.text col != "")).map
      (fun r => { cik := r.cik, year := r.year, sect := lastSegment col, text := r.text col }))

/-- The `datasets.concatenate_datasets(wrapped, axis=0)` step that follows
every call of `wrap` in the notebook. -/
def wrapConcat (data : List SrcRow) (col_names : List String) : List WrappedRow :=
  (wrap data col_names).flatten

/-- The section columns the notebook parses and wraps. -/
def SECTIONS_TO_PARSE : List String :=
  ["section_1", "section_1A", "section_7", "section_7A"]

/-! ## Retrieval evaluation (`eval_model`) -/

/-- The `(cik, year, section)` identifier of a wrapped record. -/
structure Key where
  cik : String
  year : String
  sect : String
deriving DecidableEq, Repr

/-- One iteration of the `eval_model` loop, abstracted over the Doc2Vec
model: the test document's key, the key of the most similar training
document (`top_n[0]`) and its similarity score (`sims[0][1]`). -/
structure EvalDoc where
  key : Key
  top1 : Key
  sim1 : ℚ
deriving DecidableEq, Repr

/-- Python dict assignment `d[k] = v`: overwrite in place when the key is
present, append otherwise. -/
def dictInsert (d : List (Key × (Key × ℚ))) (k : Key) (v : Key × ℚ) :
    List (Key × (Key × ℚ)) :=
  if d.any (fun p => p.1 == k) then
    d.map (fun p => if p.1 == k then (k, v) else p)
  else
    d ++ [(k, v)]

/-- The `top` dict of `eval_model`: looping over the test documents,
`top[(cik, year, section)] = (*top_n[0], sims[0][1])`. -/
def evalTop (docs : List EvalDoc) : List (Key × (Key × ℚ)) :=
  docs.foldl (fun acc d => dictInsert acc d.key (d.top1, d.sim1)) []

/-- The first accuracy loop's test: `top[k][0] == c and top[k][1] == y and
top[k][2] == s`. -/
def sameDocHit (p : Key × (Key × ℚ)) : Bool :=
  p.2.1.cik == p.1.cik && p.2.1.year == p.1.year && p.2.1.sect == p.1.sect

/-- The second accuracy loop's test: `top[k][0] == c`. -/
def sameCompanyHit (p : Key × (Key × ℚ)) : Bool :=
  p.2.1.cik == p.1.cik

/-- The ratio `accuracy / len(top)` behind the first report of
`eval_model` (the print scales it by 100). -/
def sameDocAccuracy (docs : List EvalDoc) : ℚ :=
  ((evalTop docs).countP sameDocHit : ℚ) / ((evalTop docs).length : ℚ)

/-- The ratio `accuracy / len(top)` behind the second report of
`eval_model` (the print scales it by 100). -/
def sameCompanyAccuracy (docs : List EvalDoc) : ℚ :=
  ((evalTop docs).countP sameCompanyHit : ℚ) / ((evalTop docs).length : ℚ)

/-! ## Mean pooling (`mean_pooling` and `get_embeddings`) -/

/-- The tensors `mean_pooling` receives for one tokenized batch:
`token_embeddings[chunk][token][dim]`, `attention_mask[chunk][token]`
(already cast to float) and the `overflow_to_sample_mapping` array `sm`
with one entry per chunk. -/
structure Batch where
  nChunks : ℕ
  nTokens : ℕ
  emb : ℕ → ℕ → ℕ → ℚ
  mask : ℕ → ℕ → ℚ
  sm : ℕ → ℕ

/-- `np.where(sample_map == i)[0]`: the chunk indices belonging to
sample `i`, in increasing order. -/
def whereEq (b : Batch) (i : ℕ) : List ℕ :=
  (List.range b.nChunks).filter (fun j => b.sm j == i)

/-- Component `k` of
`tf.reduce_sum(token_embeddings[s:e] * input_mask_expanded[s:e], axis=[0,1])`. -/
def sliceWeightedSum (b : Batch) (s e k : ℕ) : ℚ :=
  ∑ c ∈ Finset.Ico s e, ∑ t ∈ Finset.range b.nTokens, b.emb c t k * b.mask c t

/-- `tf.reduce_sum(input_mask_expanded[s:e])`. -/
def sliceMaskSum (b : Batch) (s e : ℕ) : ℚ :=
  ∑ c ∈ Finset.Ico s e, ∑ t ∈ Finset.range b.nTokens, b.mask c t

/-- The clipped denominator
`tf.clip_by_value(tf.reduce_sum(input_mask_expanded[s:e]), 1e-7, np.inf)`. -/
def sum_mask (b : Batch) (s e : ℕ) : ℚ :=
  max (sliceMaskSum b s e) (1 / 10 ^ 7)

/-- One iteration of the `mean_pooling` loop at dimension `k`: `none` models
the `IndexError` of `np.where(sample_map == i)[0][0]` on an absent sample
index; otherwise the summed slice `[s_idx : e_idx]` divided by the clipped
mask sum. -/
def mean_pooling_doc (b : Batch) (i k : ℕ) : Option ℚ :=
  match (whereEq b i).head?, (whereEq b i).getLast? with
  | some s, some l => some (sliceWeightedSum b s (l + 1) k / sum_mask b s (l + 1))
  | _, _ => none

/-- The batch size fixed by the notebook. -/
def BATCH_SIZE : ℕ := 16

/-- The `batch_result` accumulation over the given sample indices; `none`
as soon as one iteration fails. -/
def collectDocs (b : Batch) (k : ℕ) : List ℕ → Option (List ℚ)
  | [] => some []
  | i :: rest =>
    match mean_pooling_doc b i k, collectDocs b k rest with
    | some v, some vs => some (v :: vs)
    | _, _ => none

/-- `mean_pooling` at dimension `k`: the loop `for i in range(BATCH_SIZE)`
over `mean_pooling_doc`. -/
def mean_pooling (b : Batch) (k : ℕ) : Option (List ℚ) :=
  collectDocs b k (List.range BATCH_SIZE)

/-- The chunks of sample `i`, as a finset: the chunks `c` of the batch with
`sample_map[c] = i`. -/
def docChunks (b : Batch) (i : ℕ) : Finset ℕ :=
  (Finset.range b.nChunks).filter (fun c => b.sm c = i)

/-! ## Concrete sample data used by the witnesses -/

/-- A content token that passes every exclusion test. -/
def tokGood : Token :=
  { text := "revenue", lemma_ := "revenue", pos_ := "NOUN",
    is_stop := false, is_digit := false, is_alpha := true,
    is_punct := false, is_space := false }

/-- A stop-word token, excluded by the filter. -/
def tokStop : Token :=
  { text := "the", lemma_ := "the", pos_ := "DET",
    is_stop := true, is_digit := false, is_alpha := true,
    is_punct := false, is_space := false }

/-- A concrete spaCy pipeline for the witnesses: two fixed analyses. -/
def nlp0 : Nlp := fun text =>
  if text == "the revenue" then [[tokStop, tokGood]]
  else if text == "the" then [[tokStop]]
  else [[]]

/-- A source row whose only non-empty section is `section_1`. -/
def row0 : SrcRow :=
  { cik := "0001", year := "2016",
    text := fun col => if col == "section_1" then "alpha beta" else "" }

/-- A source row whose `section_1` holds a stop word followed by a content
word under `nlp0`. -/
def rowRev : SrcRow :=
  { cik := "0001", year := "2016",
    text := fun col => if col == "section_1" then "the revenue" else "" }

/-- A source row whose `section_1` is a lone stop word under `nlp0`. -/
def rowStop : SrcRow :=
  { cik := "0002", year := "2016",
    text := fun col => if col == "section_1" then "the" else "" }

/-! ## Helper lemmas -/

theorem mem_clean_sentence_aux (sents : List (List Token)) (acc : List Token)
    (t : Token) (h : t ∈ sents.foldl (fun a sent => a ++ sent.filter keepToken) acc) :
    t ∈ acc ∨ keepToken t = true := by
  induction sents generalizing acc with
  | nil => exact Or.inl h
  | cons s rest ih =>
    rcases ih (acc ++ s.filter keepToken) h with h' | h'
    · rcases List.mem_append.1 h' with h2 | h2
      · exact Or.inl h2
      · exact Or.inr (List.of_mem_filter h2)
    · exact Or.inr h'

/-! ## C2: the retained tokens satisfy the exclusion predicate -/

/-- C2: every token retained by the `clean_sentence` accumulation of
`parse_sections` is not a stop word, not a digit token, is alphabetic, is
not punctuation, is not whitespace, its lemma is not `-PRON-`, and its
part-of-speech tag is none of `PUNCT`, `SYM`, `X`. -/
theorem clean_tokens_satisfy_exclusion (nlp : Nlp) (text : String) (t : Token)
    (ht : t ∈ clean_sentence (nlp text)) :
    t.is_stop = false ∧ t.is_digit = false ∧ t.is_alpha = true ∧
      t.is_punct = false ∧ t.is_space = false ∧ t.lemma_ ≠ "-PRON-" ∧
      t.pos_ ∉ (["PUNCT", "SYM", "X"] : List String) := by
  have hk : keepToken t = true := by
    rcases mem_clean_sentence_aux (nlp text) [] t ht with h | h
    · simp at h
    · exact h
  simp [keepToken] at hk
  simp only [List.mem_cons, List.not_mem_nil]
  tauto

/-- C2 witness: on the concrete text `"the revenue"` the token `tokGood`
is retained and satisfies every exclusion condition. -/
theorem clean_tokens_satisfy_exclusion_witness :
    tokGood.is_stop = false ∧ tokGood.is_digit = false ∧ tokGood.is_alpha = true ∧
      tokGood.is_punct = false ∧ tokGood.is_space = false ∧
      tokGood.lemma_ ≠ "-PRON-" ∧
      tokGood.pos_ ∉ (["PUNCT", "SYM", "X"] : List String) :=
  clean_tokens_satisfy_exclusion nlp0 "the revenue" tokGood (by decide)

/-! ## C7: `parse_sections` preserves the key fields -/

/-- C7: `parse_sections` copies the `cik` and `year` columns through
unchanged, the `parsed_<col>` column of each requested section holds the
filtered texts of that section, and the output columns are exactly `cik`,
`year` and the `parsed_` versions of the requested columns. -/
theorem parse_sections_preserves_keys (nlp : Nlp) (ex : Examples) (cols : List String) :
    (parse_sections nlp ex cols).lookup "cik" = some ex.cik ∧
      (parse_sections nlp ex cols).lookup "year" = some ex.year ∧
      (∀ col ∈ cols,
        ("parsed_" ++ col, (ex.cols col).map (cleanDoc nlp)) ∈ parse_sections nlp ex cols) ∧
      (parse_sections nlp ex cols).map Prod.fst =
        "cik" :: "year" :: cols.map (fun col => "parsed_" ++ col) := by
  refine ⟨?_, ?_, ?_, ?_⟩
  · simp [parse_sections, List.lookup]
  · simp [parse_sections, List.lookup]
  · intro col hcol
    simp only [parse_sections, List.mem_cons]
    exact Or.inr (Or.inr (List.mem_map.2 ⟨col, hcol, rfl⟩))
  · simp [parse_sections]

/-- C7 witness: on a concrete batch with one section column, the keys come
through unchanged and the section column is replaced by its filtered
version. -/
theorem parse_sections_preserves_keys_witness :
    (parse_sections nlp0
        { cik := ["0001"], year := ["2016"], cols := fun _ => ["the revenue"] }
        ["section_1"]).lookup "cik" = some ["0001"] ∧
      ("parsed_" ++ "section_1", [cleanDoc nlp0 "the revenue"]) ∈
        parse_sections nlp0
          { cik := ["0001"], year := ["2016"], cols := fun _ => ["the revenue"] }
          ["section_1"] :=
  ⟨(parse_sections_preserves_keys nlp0
      { cik := ["0001"], year := ["2016"], cols := fun _ => ["the revenue"] }
      ["section_1"]).1,
   (parse_sections_preserves_keys nlp0
      { cik := ["0001"], year := ["2016"], cols := fun _ => ["the revenue"] }
      ["section_1"]).2.2.1 "section_1" (by decide)⟩

/-! ## C10: `wrap` keeps only non-empty texts and derives `section` -/

/-- C10: every record produced by `wrap` has a non-empty text, its
`section` field is the part of the source column name after the last
underscore, and its text comes from that column of some source row. -/
theorem wrap_rows_nonempty_text (data : List SrcRow) (cols : List String)
    (w : WrappedRow) (hw : w ∈ wrapConcat data cols) :
    w.text ≠ "" ∧
      ∃ col ∈ cols, w.sect = lastSegment col ∧ ∃ r ∈ data, w.text = r.text col := by
  rcases List.mem_flatten.1 hw with ⟨l, hl, hwl⟩
  rcases List.mem_map.1 hl with ⟨col, hcol, rfl⟩
  rcases List.mem_map.1 hwl with ⟨r, hr, rfl⟩
  have hr' := List.of_mem_filter hr
  refine ⟨?_, col, hcol, rfl, r, List.mem_of_mem_filter hr, rfl⟩
  simpa using hr'

/-- C10 witness: wrapping the concrete row `row0` yields exactly the row
for `section_1`, with non-empty text and `section` equal to `"1"`. -/
theorem wrap_rows_nonempty_text_witness :
    ({ cik := "0001", year := "2016", sect := "1", text := "alpha beta" } : WrappedRow).text ≠ "" ∧
      ∃ col ∈ SECTIONS_TO_PARSE,
        ({ cik := "0001", year := "2016", sect := "1", text := "alpha beta" } : WrappedRow).sect =
          lastSegment col ∧
        ∃ r ∈ [row0],
          ({ cik := "0001", year := "2016", sect := "1", text := "alpha beta" } : WrappedRow).text =
            r.text col :=
  wrap_rows_nonempty_text [row0] SECTIONS_TO_PARSE
    { cik := "0001", year := "2016", sect := "1", text := "alpha beta" } (by decide)

/-! ## Helper lemmas about `evalTop` -/

theorem dictInsert_fresh (acc : List (Key × (Key × ℚ))) (k : Key) (v : Key × ℚ)
    (h : ∀ p ∈ acc, p.1 ≠ k) : dictInsert acc k v = acc ++ [(k, v)] := by
  unfold dictInsert
  rw [if_neg]
  simp only [List.any_eq_true, beq_iff_eq, not_exists, not_and]
  exact fun p hp => h p hp

theorem foldl_dictInsert_eq (docs : List EvalDoc) (acc : List (Key × (Key × ℚ)))
    (hdisj : ∀ d ∈ docs, ∀ p ∈ acc, p.1 ≠ d.key)
    (hnd : (docs.map EvalDoc.key).Nodup) :
    docs.foldl (fun a d => dictInsert a d.key (d.top1, d.sim1)) acc =
      acc ++ docs.map (fun d => (d.key, (d.top1, d.sim1))) := by
  induction docs generalizing acc with
  | nil => simp
  | cons d rest ih =>
    have hins : dictInsert acc d.key (d.top1, d.sim1) = acc ++ [(d.key, (d.top1, d.sim1))] :=
      dictInsert_fresh acc d.key (d.top1, d.sim1)
        (fun p hp => hdisj d (List.mem_cons_self d rest) p hp)
    have hkey : d.key ∉ rest.map EvalDoc.key := (List.nodup_cons.1 hnd).1
    have step := ih (acc ++ [(d.key, (d.top1, d.sim1))])
      (by
        intro d' hd' p hp
        rcases List.mem_append.1 hp with hp1 | hp1
        · exact hdisj d' (List.mem_cons_of_mem d hd') p hp1
        · rcases List.mem_singleton.1 hp1 with rfl
          intro hcontra
          apply hkey
          have hck : d.key = d'.key := hcontra
          rw [hck]
          exact List.mem_map_of_mem EvalDoc.key hd')
      (List.nodup_cons.1 hnd).2
    calc (d :: rest).foldl (fun a d => dictInsert a d.key (d.top1, d.sim1)) acc
        = rest.foldl (fun a d => dictInsert a d.key (d.top1, d.sim1))
            (dictInsert acc d.key (d.top1, d.sim1)) := List.foldl_cons ..
      _ = acc ++ [(d.key, (d.top1, d.sim1))] ++ rest.map (fun d => (d.key, (d.top1, d.sim1))) := by
          rw [hins]; exact step
      _ = acc ++ (d :: rest).map (fun d => (d.key, (d.top1, d.sim1))) := by simp

/-- Under unique test keys, the `top` dict lists each test document's
result once, in order. -/
theorem evalTop_eq_map (docs : List EvalDoc) (hnd : (docs.map EvalDoc.key).Nodup) :
    evalTop docs = docs.map (fun d => (d.key, (d.top1, d.sim1))) := by
  have h := foldl_dictInsert_eq docs [] (by intro d _ p hp; cases hp) hnd
  simpa [evalTop] using h

theorem dictInsert_keys_nodup (acc : List (Key × (Key × ℚ))) (k : Key) (v : Key × ℚ)
    (h : (acc.map Prod.fst).Nodup) : ((dictInsert acc k v).map Prod.fst).Nodup := by
  unfold dictInsert
  by_cases hc : acc.any (fun p => p.1 == k) = true
  · rw [if_pos hc]
    have hmap : (acc.map (fun p => if p.1 == k then (k, v) else p)).map Prod.fst =
        acc.map Prod.fst := by
      rw [List.map_map]
      refine List.map_congr_left ?_
      intro p _
      by_cases hpk : p.1 = k
      · simp [hpk]
      · simp [hpk]
    rw [hmap]; exact h
  · rw [if_neg hc]
    rw [List.map_append]
    have hk : k ∉ acc.map Prod.fst := by
      intro hmem
      rcases List.mem_map.1 hmem with ⟨p, hp, hpk⟩
      exact hc (List.any_eq_true.2 ⟨p, hp, by simp [hpk]⟩)
    have hperm : (acc.map Prod.fst ++ [k]).Perm (k :: acc.map Prod.fst) :=
      List.perm_append_singleton k (acc.map Prod.fst)
    exact hperm.nodup_iff.2 (List.nodup_cons.2 ⟨hk, h⟩)

theorem foldl_dictInsert_keys_nodup (docs : List EvalDoc) (acc : List (Key × (Key × ℚ)))
    (h : (acc.map Prod.fst).Nodup) :
    ((docs.foldl (fun a d => dictInsert a d.key (d.top1, d.sim1)) acc).map Prod.fst).Nodup := by
  induction docs generalizing acc with
  | nil => exact h
  | cons d rest ih => exact ih _ (dictInsert_keys_nodup acc d.key (d.top1, d.sim1) h)

/-- The keys of the `top` dict are distinct, whatever the test corpus. -/
theorem evalTop_keys_nodup (docs : List EvalDoc) : ((evalTop docs).map Prod.fst).Nodup :=
  foldl_dictInsert_keys_nodup docs [] (by simp)

/-! ## C1: the reported retrieval accuracies -/

/-- C1: on a non-empty test corpus with distinct keys, the same-document
and same-company accuracies reported by `eval_model` equal the number of
test documents whose top-1 retrieval matches (the whole key, respectively
the `cik`) divided by the number of evaluated documents, and both lie in
`[0, 1]`. -/
theorem eval_model_accuracies (docs : List EvalDoc) (hne : docs ≠ [])
    (hnd : (docs.map EvalDoc.key).Nodup) :
    sameDocAccuracy docs =
        (docs.countP (fun d => sameDocHit (d.key, (d.top1, d.sim1))) : ℚ) /
          (docs.length : ℚ) ∧
      sameCompanyAccuracy docs =
        (docs.countP (fun d => sameCompanyHit (d.key, (d.top1, d.sim1))) : ℚ) /
          (docs.length : ℚ) ∧
      0 ≤ sameDocAccuracy docs ∧ sameDocAccuracy docs ≤ 1 ∧
      0 ≤ sameCompanyAccuracy docs ∧ sameCompanyAccuracy docs ≤ 1 := by
  have hmap := evalTop_eq_map docs hnd
  have hlen : (evalTop docs).length = docs.length := by rw [hmap, List.length_map]
  have hcount1 : (evalTop docs).countP sameDocHit =
      docs.countP (fun d => sameDocHit (d.key, (d.top1, d.sim1))) := by
    rw [hmap, List.countP_map]; rfl
  have hcount2 : (evalTop docs).countP sameCompanyHit =
      docs.countP (fun d => sameCompanyHit (d.key, (d.top1, d.sim1))) := by
    rw [hmap, List.countP_map]; rfl
  have hpos : (0 : ℚ) < (docs.length : ℚ) := by
    exact_mod_cast List.length_pos.2 hne
  have hb1 : ∀ p : Key × (Key × ℚ) → Bool,
      0 ≤ ((evalTop docs).countP p : ℚ) / ((evalTop docs).length : ℚ) ∧
        ((evalTop docs).countP p : ℚ) / ((evalTop docs).length : ℚ) ≤ 1 := by
    intro p
    constructor
    · exact div_nonneg (by positivity) (by positivity)
    · rw [div_le_one (by rw [hlen]; exact hpos)]
      exact_mod_cast List.countP_le_length p
  refine ⟨?_, ?_, (hb1 sameDocHit).1, (hb1 sameDocHit).2,
    (hb1 sameCompanyHit).1, (hb1 sameCompanyHit).2⟩
  · unfold sameDocAccuracy
    rw [hcount1, hlen]
  · unfold sameCompanyAccuracy
    rw [hcount2, hlen]

/-- Two concrete evaluated test documents: one exact top-1 hit, one miss. -/
def docsEx : List EvalDoc :=
  [ { key := { cik := "0001", year := "2016", sect := "1" },
      top1 := { cik := "0001", year := "2016", sect := "1" }, sim1 := 9 / 10 },
    { key := { cik := "0002", year := "2016", sect := "1" },
      top1 := { cik := "0003", year := "2015", sect := "7" }, sim1 := 1 / 2 } ]

/-- C1 witness: on the two concrete documents, both accuracies equal their
hit counts over 2 and sit inside `[0, 1]`. -/
theorem eval_model_accuracies_witness :
    sameDocAccuracy docsEx =
        (docsEx.countP (fun d => sameDocHit (d.key, (d.top1, d.sim1))) : ℚ) /
          (docsEx.length : ℚ) ∧
      sameCompanyAccuracy docsEx =
        (docsEx.countP (fun d => sameCompanyHit (d.key, (d.top1, d.sim1))) : ℚ) /
          (docsEx.length : ℚ) ∧
      0 ≤ sameDocAccuracy docsEx ∧ sameDocAccuracy docsEx ≤ 1 ∧
      0 ≤ sameCompanyAccuracy docsEx ∧ sameCompanyAccuracy docsEx ≤ 1 :=
  eval_model_accuracies docsEx (by decide) (by decide)

/-! ## C5: `(cik, year, section)` uniquely identifies each record -/

/-- C5: when the source rows have distinct `(cik, year)` pairs and the
wrapped columns have distinct trailing segments, no two records of the
concatenated `wrap` output share a `(cik, year, section)` triple; and the
`top` dict of `eval_model` never holds two entries with the same key. -/
theorem pipeline_keys_unique (data : List SrcRow) (cols : List String) (docs : List EvalDoc)
    (hdata : (data.map (fun r => (r.cik, r.year))).Nodup)
    (hcols : (cols.map lastSegment).Nodup) :
    ((wrapConcat data cols).map (fun w => (w.cik, w.year, w.sect))).Nodup ∧
      ((evalTop docs).map Prod.fst).Nodup := by
  refine ⟨?_, evalTop_keys_nodup docs⟩
  unfold wrapConcat wrap
  rw [List.map_flatten, List.map_map, List.nodup_flatten]
  constructor
  · intro l hl
    rcases List.mem_map.1 hl with ⟨col, hcol, rfl⟩
    simp only [Function.comp, List.map_map]
    have hpairs : ((data.filter (fun r => r.text col != "")).map
        (fun r => (r.cik, r.year))).Nodup :=
      hdata.sublist ((List.filter_sublist data).map (fun r => (r.cik, r.year)))
    have hsplit : (data.filter (fun r => r.text col != "")).map
        ((fun w : WrappedRow => (w.cik, w.year, w.sect)) ∘
          (fun r => { cik := r.cik, year := r.year, sect := lastSegment col,
                      text := r.text col })) =
        ((data.filter (fun r => r.text col != "")).map (fun r => (r.cik, r.year))).map
          (fun pr => (pr.1, pr.2, lastSegment col)) := by
      rw [List.map_map]; rfl
    rw [hsplit]
    refine hpairs.map ?_
    intro p q hpq
    have hpq' : (p.1, p.2, lastSegment col) = (q.1, q.2, lastSegment col) := hpq
    have h1 : p.1 = q.1 := congrArg (fun x => x.1) hpq'
    have h2 : p.2 = q.2 := congrArg (fun x => x.2.1) hpq'
    exact Prod.ext h1 h2
  · rw [List.pairwise_map]
    have hp : cols.Pairwise (fun c1 c2 => lastSegment c1 ≠ lastSegment c2) :=
      List.pairwise_map.1 hcols
    refine hp.imp ?_
    intro c1 c2 hne x hx1 hx2
    simp only [Function.comp, List.map_map] at hx1 hx2
    rcases List.mem_map.1 hx1 with ⟨r1, _, rfl⟩
    rcases List.mem_map.1 hx2 with ⟨r2, _, heq⟩
    have hseg : lastSegment c2 = lastSegment c1 := congrArg (fun tr => tr.2.2) heq
    exact hne hseg.symm

/-- Two concrete source rows with distinct `(cik, year)` pairs. -/
def data2 : List SrcRow := [rowRev, rowStop]

/-- C5 witness: on the two concrete rows, the four notebook sections and
the two concrete evaluated documents, both uniqueness conclusions hold. -/
theorem pipeline_keys_unique_witness :
    ((wrapConcat data2 SECTIONS_TO_PARSE).map (fun w => (w.cik, w.year, w.sect))).Nodup ∧
      ((evalTop docsEx).map Prod.fst).Nodup :=
  pipeline_keys_unique data2 SECTIONS_TO_PARSE docsEx (by decide) (by decide)

/-! ## C6: outputs are keyed by identifier, not by row position -/

theorem flatten_map_perm {α β : Type} (cols : List α) (f g : α → List β)
    (h : ∀ c ∈ cols, (f c).Perm (g c)) :
    ((cols.map f).flatten).Perm ((cols.map g).flatten) := by
  induction cols with
  | nil => simp
  | cons c rest ih =>
    simp only [List.map_cons, List.flatten_cons]
    exact (h c (List.mem_cons_self c rest)).append
      (ih (fun c' hc' => h c' (List.mem_cons_of_mem c hc')))

/-- C6: permuting the rows of the source dataset permutes the concatenated
`wrap` output, and permuting a distinct-keyed test corpus leaves the `top`
dict (up to permutation) and both reported accuracies unchanged. -/
theorem outputs_keyed_not_positional (data data' : List SrcRow) (cols : List String)
    (docs docs' : List EvalDoc) (hperm : data.Perm data') (hpermd : docs.Perm docs')
    (hnd : (docs.map EvalDoc.key).Nodup) :
    (wrapConcat data cols).Perm (wrapConcat data' cols) ∧
      (evalTop docs).Perm (evalTop docs') ∧
      sameDocAccuracy docs = sameDocAccuracy docs' ∧
      sameCompanyAccuracy docs = sameCompanyAccuracy docs' := by
  have hnd' : (docs'.map EvalDoc.key).Nodup := ((hpermd.map EvalDoc.key).nodup_iff).1 hnd
  have hp : (evalTop docs).Perm (evalTop docs') := by
    rw [evalTop_eq_map docs hnd, evalTop_eq_map docs' hnd']
    exact hpermd.map _
  refine ⟨?_, hp, ?_, ?_⟩
  · unfold wrapConcat wrap
    exact flatten_map_perm cols _ _ (fun col _ => ((hperm.filter _).map _))
  · unfold sameDocAccuracy
    rw [hp.countP_eq, hp.length_eq]
  · unfold sameCompanyAccuracy
    rw [hp.countP_eq, hp.length_eq]

/-- C6 witness: swapping the two concrete rows and the two concrete test
documents changes neither output. -/
theorem outputs_keyed_not_positional_witness :
    (wrapConcat [rowRev, rowStop] SECTIONS_TO_PARSE).Perm
        (wrapConcat [rowStop, rowRev] SECTIONS_TO_PARSE) ∧
      (evalTop docsEx).Perm (evalTop docsEx.reverse) ∧
      sameDocAccuracy docsEx = sameDocAccuracy docsEx.reverse ∧
      sameCompanyAccuracy docsEx = sameCompanyAccuracy docsEx.reverse :=
  outputs_keyed_not_positional [rowRev, rowStop] [rowStop, rowRev] SECTIONS_TO_PARSE
    docsEx docsEx.reverse (List.Perm.swap rowStop rowRev [])
    (List.reverse_perm docsEx).symm (by decide)

/-! ## C4: which text reaches the pretrained encoder -/

/-- The parsed column names, `parsed_<col>` for each parsed section
(`PARSED_SECTIONS` in the notebook). -/
def PARSED_SECTIONS : List String :=
  SECTIONS_TO_PARSE.map (fun col => "parsed_" ++ col)

/-- The per-row effect of `train.map(parse_sections, ...)`: the key columns
survive and each `parsed_<col>` column holds the filtered version of the
raw section `col`. -/
def parseRow (nlp : Nlp) (r : SrcRow) : SrcRow :=
  { cik := r.cik, year := r.year,
    text := fun key =>
      match SECTIONS_TO_PARSE.find? (fun col => ("parsed_" ++ col) == key) with
      | some col => cleanDoc nlp (r.text col)
      | none => "" }

/-- The parsed dataset: `parse_sections` mapped over the raw rows. -/
def parseRows (nlp : Nlp) (data : List SrcRow) : List SrcRow :=
  data.map (parseRow nlp)

/-- The texts handed to the sentence-transformer path: the notebook wraps
the RAW `train`/`test` datasets into the `raw_sections` column
(`wrap(train, SECTIONS_TO_PARSE, new_name='raw_sections')`) and
`get_embeddings` tokenizes that column. -/
def encoderInput (data : List SrcRow) : List WrappedRow :=
  wrapConcat data SECTIONS_TO_PARSE

/-- The texts handed to the Doc2Vec path: the notebook wraps the PARSED
datasets into the `parsed_sections` column. -/
def doc2vecInput (nlp : Nlp) (data : List SrcRow) : List WrappedRow :=
  wrapConcat (parseRows nlp data) PARSED_SECTIONS

/-- C4 counterexample: on the concrete row `rowStop` (its `section_1` is a
lone stop word), the text wrapped for the encoder is the raw section text
`"the"`, which is no filtered section text of the record — the claim that
the encoder receives the cleaned text is false. -/
theorem encoder_input_raw_counterexample :
    ¬ (∀ w ∈ encoderInput [rowStop],
        ∃ col ∈ SECTIONS_TO_PARSE, w.text = cleanDoc nlp0 (rowStop.text col)) := by
  decide

/-- C4 amended: the sentence-transformer inference call receives the raw
section text of some source record, while the Doc2Vec training corpus
receives the cleaned (filtered) section text. -/
theorem encoder_raw_doc2vec_cleaned (nlp : Nlp) (data : List SrcRow) :
    (∀ w ∈ encoderInput data,
        ∃ r ∈ data, ∃ col ∈ SECTIONS_TO_PARSE, w.text = r.text col) ∧
      (∀ w ∈ doc2vecInput nlp data,
        ∃ r ∈ data, ∃ col ∈ SECTIONS_TO_PARSE, w.text = cleanDoc nlp (r.text col)) := by
  constructor
  · intro w hw
    rcases List.mem_flatten.1 hw with ⟨l, hl, hwl⟩
    rcases List.mem_map.1 hl with ⟨col, hcol, rfl⟩
    rcases List.mem_map.1 hwl with ⟨r, hr, rfl⟩
    exact ⟨r, List.mem_of_mem_filter hr, col, hcol, rfl⟩
  · intro w hw
    rcases List.mem_flatten.1 hw with ⟨l, hl, hwl⟩
    rcases List.mem_map.1 hl with ⟨pcol, hpcol, rfl⟩
    rcases List.mem_map.1 hwl with ⟨r', hr', rfl⟩
    have hr'' := List.mem_of_mem_filter hr'
    rcases List.mem_map.1 hr'' with ⟨r, hr, rfl⟩
    rcases List.mem_map.1 hpcol with ⟨col, hcol, rfl⟩
    refine ⟨r, hr, col, hcol, ?_⟩
    simp only [SECTIONS_TO_PARSE, List.mem_cons, List.not_mem_nil, or_false] at hcol
    rcases hcol with rfl | rfl | rfl | rfl <;> rfl

/-- C4 amended witness: on the concrete row `rowRev`, the encoder-side
wrapped text is the raw `"the revenue"` and the Doc2Vec-side wrapped text
is the cleaned `"revenue"`. -/
theorem encoder_raw_doc2vec_cleaned_witness :
    (∃ r ∈ [rowRev], ∃ col ∈ SECTIONS_TO_PARSE,
        ({ cik := "0001", year := "2016", sect := "1", text := "the revenue" } :
          WrappedRow).text = r.text col) ∧
      (∃ r ∈ [rowRev], ∃ col ∈ SECTIONS_TO_PARSE,
        ({ cik := "0001", year := "2016", sect := "1", text := "revenue" } :
          WrappedRow).text = cleanDoc nlp0 (r.text col)) :=
  ⟨(encoder_raw_doc2vec_cleaned nlp0 [rowRev]).1
      { cik := "0001", year := "2016", sect := "1", text := "the revenue" } (by decide),
   (encoder_raw_doc2vec_cleaned nlp0 [rowRev]).2
      { cik := "0001", year := "2016", sect := "1", text := "revenue" } (by decide)⟩

/-! ## C9: the clipped denominator of `mean_pooling` -/

/-- C9: the denominator `sum_mask` of the division in `mean_pooling` is
clipped to at least `1e-7`, hence positive, and equals exactly `1e-7` when
every attention-mask entry is zero — the division never divides by zero. -/
theorem sum_mask_never_zero (b : Batch) (s e : ℕ) :
    (1 / 10 ^ 7 : ℚ) ≤ sum_mask b s e ∧ 0 < sum_mask b s e ∧
      ((∀ c t, b.mask c t = 0) → sum_mask b s e = 1 / 10 ^ 7) := by
  refine ⟨le_max_right _ _, lt_of_lt_of_le (by norm_num) (le_max_right _ _), ?_⟩
  intro hz
  unfold sum_mask sliceMaskSum
  have hsum : (∑ c ∈ Finset.Ico s e, ∑ t ∈ Finset.range b.nTokens, b.mask c t) = 0 := by
    simp [hz]
  rw [hsum]
  exact max_eq_right (by norm_num)

/-- A concrete batch whose attention mask is identically zero. -/
def bZero : Batch :=
  { nChunks := 2, nTokens := 3, emb := fun _ _ _ => 1, mask := fun _ _ => 0,
    sm := fun _ => 0 }

/-- C9 witness: on the all-zero-mask batch the clipped denominator is
exactly `1e-7`, hence positive. -/
theorem sum_mask_never_zero_witness :
    (1 / 10 ^ 7 : ℚ) ≤ sum_mask bZero 0 2 ∧ 0 < sum_mask bZero 0 2 ∧
      sum_mask bZero 0 2 = 1 / 10 ^ 7 :=
  have h := sum_mask_never_zero bZero 0 2
  ⟨h.1, h.2.1, h.2.2 (fun _ _ => rfl)⟩

/-! ## C8: `mean_pooling` is total only when every sample index occurs -/

theorem whereEq_eq_nil_iff (b : Batch) (i : ℕ) :
    whereEq b i = [] ↔ ∀ j < b.nChunks, b.sm j ≠ i := by
  unfold whereEq
  rw [List.filter_eq_nil_iff]
  constructor
  · intro h j hj
    have := h j (List.mem_range.2 hj)
    simpa using this
  · intro h j hj
    have := h j (List.mem_range.1 hj)
    simpa using this

theorem mean_pooling_doc_isSome_iff (b : Batch) (i k : ℕ) :
    (mean_pooling_doc b i k).isSome ↔ whereEq b i ≠ [] := by
  unfold mean_pooling_doc
  cases hW : whereEq b i with
  | nil => simp
  | cons a l =>
    have hlast : (a :: l).getLast? = some ((a :: l).getLast (by simp)) :=
      List.getLast?_eq_getLast_of_ne_nil (by simp)
    rw [hlast]
    simp

theorem collectDocs_isSome_iff (b : Batch) (k : ℕ) (idxs : List ℕ) :
    (collectDocs b k idxs).isSome ↔ ∀ i ∈ idxs, (mean_pooling_doc b i k).isSome := by
  induction idxs with
  | nil => simp [collectDocs]
  | cons i rest ih =>
    unfold collectDocs
    cases hd : mean_pooling_doc b i k with
    | none => simp [hd]
    | some v =>
      cases hr : collectDocs b k rest with
      | none =>
        simp only [hd, hr, List.mem_cons]
        constructor
        · intro h; cases h
        · intro h
          have := ih.2 (fun j hj => h j (Or.inr hj))
          rw [hr] at this; cases this
      | some vs =>
        simp only [hd, hr, List.mem_cons, Option.isSome_some]
        constructor
        · intro _ j hj
          rcases hj with rfl | hj
          · simp [hd]
          · exact ih.1 (by rw [hr]; rfl) j hj
        · intro _; trivial

/-- C8: when every sample index below `BATCH_SIZE` occurs in `sample_map`,
every chunk lookup of `mean_pooling` succeeds; when an index below
`BATCH_SIZE` is missing (as in a final batch with fewer documents), its
`np.where` lookup is the empty array and `mean_pooling` fails. -/
theorem mean_pooling_total_iff_all_samples (b : Batch) (k : ℕ) :
    ((∀ i < BATCH_SIZE, ∃ j, j < b.nChunks ∧ b.sm j = i) → (mean_pooling b k).isSome) ∧
      (∀ i, i < BATCH_SIZE → (∀ j < b.nChunks, b.sm j ≠ i) →
        whereEq b i = [] ∧ mean_pooling b k = none) := by
  constructor
  · intro h
    rw [mean_pooling, collectDocs_isSome_iff]
    intro i hi
    rw [mean_pooling_doc_isSome_iff]
    intro hnil
    rcases h i (List.mem_range.1 hi) with ⟨j, hj, hsm⟩
    exact (whereEq_eq_nil_iff b i).1 hnil j hj hsm
  · intro i hi hmiss
    have hnil : whereEq b i = [] := (whereEq_eq_nil_iff b i).2 hmiss
    refine ⟨hnil, ?_⟩
    by_contra hne
    have hsome : (mean_pooling b k).isSome := by
      cases hmp : mean_pooling b k with
      | none => exact absurd hmp hne
      | some v => rfl
    have := (collectDocs_isSome_iff b k (List.range BATCH_SIZE)).1 hsome i
      (List.mem_range.2 hi)
    rw [mean_pooling_doc_isSome_iff] at this
    exact this hnil

/-- A concrete batch in which every sample index below 16 occurs. -/
def bFull : Batch :=
  { nChunks := 16, nTokens := 1, emb := fun _ _ _ => 1, mask := fun _ _ => 1,
    sm := fun j => j }

/-- A concrete final batch with only 3 documents: indices 3..15 are
missing from `sample_map`. -/
def bShort : Batch :=
  { nChunks := 3, nTokens := 1, emb := fun _ _ _ => 1, mask := fun _ _ => 1,
    sm := fun j => j }

/-- C8 witness: `mean_pooling` succeeds on the full concrete batch, and on
the short batch sample 3 has an empty lookup and `mean_pooling` fails. -/
theorem mean_pooling_total_iff_all_samples_witness :
    (mean_pooling bFull 0).isSome ∧
      (whereEq bShort 3 = [] ∧ mean_pooling bShort 0 = none) :=
  ⟨(mean_pooling_total_iff_all_samples bFull 0).1 (fun i hi => ⟨i, hi, rfl⟩),
   (mean_pooling_total_iff_all_samples bShort 0).2 3 (by decide) (by decide)⟩

/-! ## C3: `mean_pooling` computes the mask-weighted average per document -/

theorem mem_whereEq_iff (b : Batch) (i j : ℕ) :
    j ∈ whereEq b i ↔ j < b.nChunks ∧ b.sm j = i := by
  unfold whereEq
  rw [List.mem_filter, List.mem_range]
  simp

theorem whereEq_sorted (b : Batch) (i : ℕ) : (whereEq b i).Sorted (· < ·) :=
  (List.sorted_lt_range b.nChunks).filter _

theorem mean_pooling_doc_of_bounds (b : Batch) (i k s l : ℕ)
    (hh : (whereEq b i).head? = some s) (hl : (whereEq b i).getLast? = some l) :
    mean_pooling_doc b i k =
      some (sliceWeightedSum b s (l + 1) k / sum_mask b s (l + 1)) := by
  unfold mean_pooling_doc
  rw [hh, hl]

theorem sorted_head_le {l : List ℕ} (hs : l.Sorted (· < ·)) {s : ℕ}
    (hh : l.head? = some s) : ∀ x ∈ l, s ≤ x := by
  cases l with
  | nil => cases hh
  | cons a t =>
    have ha : a = s := by simpa using hh
    subst ha
    intro x hx
    rcases List.mem_cons.1 hx with rfl | hx
    · exact le_refl x
    · exact le_of_lt (List.rel_of_sorted_cons hs x hx)

theorem sorted_le_getLast {l : List ℕ} (hs : l.Sorted (· < ·)) {e : ℕ}
    (hl : l.getLast? = some e) : ∀ x ∈ l, x ≤ e := by
  induction l with
  | nil => cases hl
  | cons a t ih =>
    cases t with
    | nil =>
      have ha : a = e := by simpa using hl
      subst ha
      intro x hx
      rcases List.mem_cons.1 hx with rfl | hx
      · exact le_refl x
      · cases hx
    | cons c t' =>
      have hl' : (c :: t').getLast? = some e :=
        (List.getLast?_cons_cons).symm.trans hl
      have hemem : e ∈ c :: t' := by
        rcases List.mem_getLast?_eq_getLast ((Option.mem_def).2 hl') with ⟨hne, he⟩
        rw [he]; exact List.getLast_mem hne
      intro x hx
      rcases List.mem_cons.1 hx with rfl | hx
      · exact le_of_lt (List.rel_of_sorted_cons hs e hemem)
      · exact ih hs.of_cons hl' x hx

/-- C3: for a chunk-sorted `sample_map` in which document `i` occurs and
whose attention-mask total for that document is at least the clip bound,
`mean_pooling` returns for document `i` exactly the sum over the
document's chunks of token embeddings weighted by the attention mask,
divided by the sum of those attention-mask entries (componentwise at
dimension `k`). -/
theorem mean_pooling_weighted_average (b : Batch) (i k : ℕ)
    (hmono : ∀ j1 j2, j1 ≤ j2 → j2 < b.nChunks → b.sm j1 ≤ b.sm j2)
    (hocc : ∃ j, j < b.nChunks ∧ b.sm j = i)
    (hmask : (1 / 10 ^ 7 : ℚ) ≤
      ∑ c ∈ docChunks b i, ∑ t ∈ Finset.range b.nTokens, b.mask c t) :
    mean_pooling_doc b i k =
      some ((∑ c ∈ docChunks b i, ∑ t ∈ Finset.range b.nTokens, b.emb c t k * b.mask c t) /
        (∑ c ∈ docChunks b i, ∑ t ∈ Finset.range b.nTokens, b.mask c t)) := by
  rcases hocc with ⟨j0, hj0, hsm0⟩
  have hj0mem : j0 ∈ whereEq b i := (mem_whereEq_iff b i j0).2 ⟨hj0, hsm0⟩
  have hne : whereEq b i ≠ [] := fun h0 => by rw [h0] at hj0mem; cases hj0mem
  cases hW : whereEq b i with
  | nil => exact absurd hW hne
  | cons a t =>
    have hhead : (whereEq b i).head? = some a := by rw [hW]; rfl
    have hlast : (whereEq b i).getLast? =
        some ((a :: t).getLast (List.cons_ne_nil a t)) := by
      rw [hW]
      exact List.getLast?_eq_getLast_of_ne_nil (List.cons_ne_nil a t)
    set lst := (a :: t).getLast (List.cons_ne_nil a t) with hlst
    have hamem : a ∈ whereEq b i := by rw [hW]; exact List.mem_cons_self a t
    have hlmem : lst ∈ whereEq b i := by rw [hW]; exact List.getLast_mem _
    have ha : a < b.nChunks ∧ b.sm a = i := (mem_whereEq_iff b i a).1 hamem
    have hl : lst < b.nChunks ∧ b.sm lst = i := (mem_whereEq_iff b i lst).1 hlmem
    have hboundLo : ∀ x ∈ whereEq b i, a ≤ x :=
      sorted_head_le (whereEq_sorted b i) hhead
    have hboundHi : ∀ x ∈ whereEq b i, x ≤ lst :=
      sorted_le_getLast (whereEq_sorted b i) hlast
    have hset : Finset.Ico a (lst + 1) = docChunks b i := by
      ext c
      rw [Finset.mem_Ico, Nat.lt_succ_iff]
      unfold docChunks
      rw [Finset.mem_filter, Finset.mem_range]
      constructor
      · rintro ⟨hac, hcl⟩
        have hcn : c < b.nChunks := lt_of_le_of_lt hcl hl.1
        have h1 : b.sm a ≤ b.sm c := hmono a c hac hcn
        have h2 : b.sm c ≤ b.sm lst := hmono c lst hcl hl.1
        rw [ha.2] at h1
        rw [hl.2] at h2
        exact ⟨hcn, le_antisymm h2 h1⟩
      · rintro ⟨hcn, hsm⟩
        have hcmem : c ∈ whereEq b i := (mem_whereEq_iff b i c).2 ⟨hcn, hsm⟩
        exact ⟨hboundLo c hcmem, hboundHi c hcmem⟩
    rw [mean_pooling_doc_of_bounds b i k a lst hhead hlast]
    unfold sliceWeightedSum sum_mask sliceMaskSum
    rw [hset]
    rw [max_eq_left hmask]

/-- A concrete batch: two chunks, both belonging to document 0. -/
def bTwo : Batch :=
  { nChunks := 2, nTokens := 1, emb := fun c _ _ => (c : ℚ) + 1,
    mask := fun _ _ => 1, sm := fun _ => 0 }

/-- C3 witness: on the concrete two-chunk batch, document 0's pooled value
is the mask-weighted average over its two chunks. -/
theorem mean_pooling_weighted_average_witness :
    mean_pooling_doc bTwo 0 0 =
      some ((∑ c ∈ docChunks bTwo 0, ∑ t ∈ Finset.range bTwo.nTokens,
          bTwo.emb c t 0 * bTwo.mask c t) /
        (∑ c ∈ docChunks bTwo 0, ∑ t ∈ Finset.range bTwo.nTokens, bTwo.mask c t)) :=
  mean_pooling_weighted_average bTwo 0 0 (fun _ _ _ _ => le_refl 0)
    ⟨0, by decide, rfl⟩ (by norm_num [docChunks, bTwo])

end SEC
